import Mathlib

/-!
Verification of the Mentorium allocation engine (`src/lib/excel.ts` and its
domain library): the record validator row loop, the bidirectional score-based
round-robin allocation (`assignStudentsBidirectional`), and the per-mentor
statistics (`getMentorStats`).

JavaScript numbers are modelled as exact rationals extended with the three
non-finite values (`NaN`, `Infinity`, `-Infinity`); `Number.isFinite`
distinguishes exactly the finite constructor.
-/

/-- A JavaScript number: a finite rational or one of the non-finite values. -/
inductive JSNum where
  | finite (q : ℚ)
  | nan
  | posInf
  | negInf
deriving DecidableEq

/-- Model of `Number.isFinite`. -/
def JSNum.isFinite : JSNum → Bool
  | .finite _ => true
  | _ => false

/-- Model of JavaScript `+` on numbers (NaN absorbs; opposite infinities give NaN). -/
def JSNum.add : JSNum → JSNum → JSNum
  | .nan, _ => .nan
  | _, .nan => .nan
  | .posInf, .negInf => .nan
  | .negInf, .posInf => .nan
  | .posInf, _ => .posInf
  | _, .posInf => .posInf
  | .negInf, _ => .negInf
  | _, .negInf => .negInf
  | .finite x, .finite y => .finite (x + y)

/-- Model of JavaScript division of a number by a positive count (the code only
divides by a bucket size that was checked to be nonzero). -/
def JSNum.divNat : JSNum → Nat → JSNum
  | .finite x, k => .finite (x / (k : ℚ))
  | .nan, _ => .nan
  | .posInf, _ => .posInf
  | .negInf, _ => .negInf

/-- Model of the binary step of `Math.max` (NaN absorbs). -/
def JSNum.maxOp : JSNum → JSNum → JSNum
  | .nan, _ => .nan
  | _, .nan => .nan
  | .posInf, _ => .posInf
  | _, .posInf => .posInf
  | .negInf, y => y
  | x, .negInf => x
  | .finite x, .finite y => .finite (max x y)

/-- Model of the binary step of `Math.min` (NaN absorbs). -/
def JSNum.minOp : JSNum → JSNum → JSNum
  | .nan, _ => .nan
  | _, .nan => .nan
  | .negInf, _ => .negInf
  | _, .negInf => .negInf
  | .posInf, y => y
  | x, .posInf => x
  | .finite x, .finite y => .finite (min x y)

/-- Model of `Number(x.toFixed(2))`: round a finite value to two decimal places
(ties away from zero, here upward, matching `toFixed`'s pick-the-larger rule);
non-finite values round-trip unchanged (`toFixed` prints them, `Number` reparses). -/
def JSNum.toFixed2 : JSNum → JSNum
  | .finite q => .finite ((round (q * 100) : ℤ) / 100)
  | x => x

/-- The finite rational carried by a `JSNum`, if any. -/
def JSNum.ratQ : JSNum → Option ℚ
  | .finite q => some q
  | _ => none

/-- Domain type `Student` from `src/lib/utils` (the domain library). -/
structure Student where
  studentId : String
  indexNo : String
  name : String
  cwa : JSNum
deriving DecidableEq

/-- Domain type `MentorAssignment`: one mentor's bucket. -/
structure MentorAssignment where
  mentorIndex : Nat
  students : List Student
deriving DecidableEq

/-- A sweep direction of the serpentine allocation. -/
inductive Direction where
  | forward
  | backward
deriving DecidableEq

/-- Flipping the sweep direction at the end of each pass. -/
def Direction.flip : Direction → Direction
  | .forward => .backward
  | .backward => .forward

/-- Domain type `AssignmentResult`: the buckets plus the recorded pass history. -/
structure AssignmentResult where
  assignments : List MentorAssignment
  passes : List Direction
deriving DecidableEq

/-- Boolean order used by the engine's sort: `a` may precede `b` exactly when
the comparator `b.cwa - a.cwa` is non-positive, i.e. cwa descending.
Non-finite scores never reach the sort (the engine filters them out first);
they are treated as a bottom class so the order is total and transitive. -/
def cwaLe (a b : Student) : Bool :=
  match a.cwa, b.cwa with
  | .finite x, .finite y => decide (y ≤ x)
  | .finite _, _ => true
  | _, .finite _ => false
  | _, _ => true

/-- Model of `[...cleaned].sort((a, b) => b.cwa - a.cwa)`: a stable sort in
descending cwa order. -/
def sortStudents (l : List Student) : List Student :=
  l.mergeSort cwaLe

/-- One round of the serpentine `while` loop: it records the current direction,
hands the next `numMentors` students (fewer at the end) to that pass, flips the
direction, and continues with the rest.  The parameter `np` is
`numMentors - 1`; using the predecessor makes termination structural and is
harmless because the engine rejects `numMentors = 0` before looping. -/
def sweep (np : Nat) : Direction → List Student → List (Direction × List Student)
  | _, [] => []
  | dir, s :: rest => (dir, s :: rest.take np) :: sweep np dir.flip (rest.drop np)
termination_by _ rem => rem.length
decreasing_by simp [List.length_drop]; omega

/-- The students one pass pushes onto mentor `m`'s bucket, in push order: a
forward pass over `numMentors = n` mentors gives mentor `m` the `m`-th student
of the pass's chunk, a backward pass gives it the `(n-1-m)`-th. -/
def bucketContrib (n m : Nat) : Direction × List Student → List Student
  | (.forward, c) => (c.drop m).take 1
  | (.backward, c) => (c.drop (n - 1 - m)).take 1

/-- The body of `assignStudentsBidirectional` after the argument check: filter
to finite cwa, stable-sort descending, then distribute by alternating sweeps.
Each bucket's final content is the concatenation, in pass order, of what every
pass pushed onto it. -/
def allocCore (n : Nat) (students : List Student) : AssignmentResult :=
  let cleaned := students.filter fun s => s.cwa.isFinite
  let sorted := sortStudents cleaned
  let chunks := sweep (n - 1) .forward sorted
  { assignments := (List.range n).map fun m =>
      { mentorIndex := m, students := chunks.flatMap (bucketContrib n m) }
    passes := chunks.map Prod.fst }

/-- Model of `assignStudentsBidirectional`: `numMentors` is a JS number
(here a rational, as only finite values are expressible); the guard
`!Number.isInteger(numMentors) || numMentors <= 0` throws, modelled as
`Except.error` with the thrown message. -/
def assignStudentsBidirectional (students : List Student) (numMentors : ℚ) :
    Except String AssignmentResult :=
  if numMentors.den ≠ 1 ∨ numMentors ≤ 0 then
    .error "numMentors must be a positive integer"
  else
    .ok (allocCore numMentors.num.toNat students)

/-- Model of `reduce((sum, s) => sum + s.cwa, 0)`. -/
def jsSum (l : List JSNum) : JSNum :=
  l.foldl JSNum.add (.finite 0)

/-- Model of `Math.max(...l)`: fold from `-Infinity` (the value of `Math.max()`). -/
def jsMax (l : List JSNum) : JSNum :=
  l.foldl JSNum.maxOp .negInf

/-- Model of `Math.min(...l)`: fold from `Infinity` (the value of `Math.min()`). -/
def jsMin (l : List JSNum) : JSNum :=
  l.foldl JSNum.minOp .posInf

/-- Domain type of one entry of `getMentorStats`' result. -/
structure MentorStats where
  mentorIndex : Nat
  count : Nat
  averageCwa : JSNum
  highestCwa : JSNum
  lowestCwa : JSNum
deriving DecidableEq

/-- The body of `getMentorStats`' `map` callback: per bucket, the size, the
mean cwa rounded to two decimals (`0` for an empty bucket, by the `count ?`
truthiness guards), and the extreme cwa values (`0` when empty). -/
def mentorStatOf (a : MentorAssignment) : MentorStats :=
  let count := a.students.length
  let avg := if count = 0 then JSNum.finite 0
    else (jsSum (a.students.map fun s => s.cwa)).divNat count
  let highest := if count = 0 then JSNum.finite 0
    else jsMax (a.students.map fun s => s.cwa)
  let lowest := if count = 0 then JSNum.finite 0
    else jsMin (a.students.map fun s => s.cwa)
  { mentorIndex := a.mentorIndex
    count := count
    averageCwa := avg.toFixed2
    highestCwa := highest
    lowestCwa := lowest }

/-- Model of `getMentorStats`: one stats record per bucket, in order. -/
def getMentorStats (assignments : List MentorAssignment) : List MentorStats :=
  assignments.map mentorStatOf

/-- The whitespace class stripped by JavaScript `String.prototype.trim`
(ASCII whitespace plus no-break space and the BOM; other Unicode space
separators are omitted as they never occur in the rosters modelled here). -/
def jsWhitespace (ch : Char) : Bool :=
  ch = ' ' ∨ ch = '\t' ∨ ch = '\n' ∨ ch = '\r' ∨
    ch = Char.ofNat 11 ∨ ch = Char.ofNat 12 ∨ ch = Char.ofNat 160 ∨ ch = Char.ofNat 65279

/-- Model of JavaScript `String.prototype.trim`: strip leading and trailing
whitespace. -/
def trimStr (s : String) : String :=
  ⟨(((s.data.dropWhile jsWhitespace).reverse.dropWhile jsWhitespace).reverse)⟩

/-- One raw spreadsheet row as the validator loop of `parseStudentsFromFile`
sees it: the three text cells after the `String(...)` coercion (before
trimming), and the CWA cell after `Number.parseFloat(String(...))`. -/
structure RawRow where
  studentIdRaw : String
  indexNoRaw : String
  nameRaw : String
  cwaParsed : JSNum
deriving DecidableEq

/-- Model of the regular expression test `^\d{k}$` on a string. -/
def isDigits (k : Nat) (s : String) : Bool :=
  s.length == k && s.toList.all Char.isDigit

/-- The validator's CWA check: finite and within `[0, 100]`. -/
def cwaValid : JSNum → Bool
  | .finite q => decide (0 ≤ q ∧ q ≤ 100)
  | _ => false

/-- One iteration of the validator loop (`parseStudentsFromFile`, rows part):
trim the text cells, run the four checks accumulating error strings, and build
the `Student` record regardless of validity, with the cwa rounded to two
decimal places. -/
def validateRow (rowNum : Nat) (r : RawRow) : Student × List String :=
  let studentId := trimStr r.studentIdRaw
  let indexNo := trimStr r.indexNoRaw
  let name := trimStr r.nameRaw
  let cwa := r.cwaParsed
  let e1 := if isDigits 8 studentId then [] else [s!"Row {rowNum}: STUDENTID must be 8 digits"]
  let e2 := if isDigits 7 indexNo then [] else [s!"Row {rowNum}: INDEXNO must be 7 digits"]
  let e3 := if name.isEmpty then [s!"Row {rowNum}: NAME is required"] else []
  let e4 := if cwaValid cwa then [] else [s!"Row {rowNum}: CWA must be a number between 0 and 100"]
  ({ studentId := studentId, indexNo := indexNo, name := name, cwa := cwa.toFixed2 },
   e1 ++ e2 ++ e3 ++ e4)

/-- The validator loop from row number `rowNum` on: one `Student` appended per
row, errors accumulated in row order. -/
def validateRowsFrom (rowNum : Nat) : List RawRow → List Student × List String
  | [] => ([], [])
  | r :: rs =>
    let head := validateRow rowNum r
    let rest := validateRowsFrom (rowNum + 1) rs
    (head.1 :: rest.1, head.2 ++ rest.2)

/-- The validator loop of `parseStudentsFromFile` over all data rows: row
numbers start at 2 (`rowNum = i + 2`, the header being row 1). -/
def validateRows (rows : List RawRow) : List Student × List String :=
  validateRowsFrom 2 rows

/-- The finite cwa values of a list of students, in order. -/
def ratsOf (l : List Student) : List ℚ :=
  l.filterMap fun s => s.cwa.ratQ

/-- Stated from the spec: the arithmetic mean of a list of scores rounded to
two decimals, `0` when the list is empty.  Used to compare `getMentorStats`
against the specified value. -/
def specMeanRound2 (l : List ℚ) : ℚ :=
  if l.length = 0 then 0 else ((round ((l.sum / (l.length : ℚ)) * 100) : ℤ) : ℚ) / 100

/-- Stated from the spec: the maximum of a list of scores, `0` when empty. -/
def specMaxQ : List ℚ → ℚ
  | [] => 0
  | q :: qs => qs.foldl max q

/-- Stated from the spec: the minimum of a list of scores, `0` when empty. -/
def specMinQ : List ℚ → ℚ
  | [] => 0
  | q :: qs => qs.foldl min q

/-- A shorthand for building a concrete student with a finite score. -/
def mkStudent (idStr ixStr nmStr : String) (q : ℚ) : Student :=
  { studentId := idStr, indexNo := ixStr, name := nmStr, cwa := .finite q }

/-- The roster of the spec's Example 1: six students scored 90, 80, 70, 60, 50, 40. -/
def exampleRoster : List Student :=
  [mkStudent "1" "1" "1" 90, mkStudent "2" "2" "2" 80, mkStudent "3" "3" "3" 70,
   mkStudent "4" "4" "4" 60, mkStudent "5" "5" "5" 50, mkStudent "6" "6" "6" 40]

/-- A five-student roster used to evaluate the engine at a concrete input where
the two buckets end up with different sizes. -/
def oddRoster : List Student :=
  [mkStudent "1" "1" "1" 90, mkStudent "2" "2" "2" 80, mkStudent "3" "3" "3" 70,
   mkStudent "4" "4" "4" 60, mkStudent "5" "5" "5" 50]

/-! ### Helper lemmas -/

theorem cwaLe_trans (a b c : Student) (h1 : cwaLe a b) (h2 : cwaLe b c) : cwaLe a c := by
  rcases a with ⟨_, _, _, ca⟩
  rcases b with ⟨_, _, _, cb⟩
  rcases c with ⟨_, _, _, cc⟩
  cases ca <;> cases cb <;> cases cc <;> simp_all [cwaLe]
  exact le_trans h2 h1

theorem cwaLe_total (a b : Student) : cwaLe a b || cwaLe b a := by
  rcases a with ⟨_, _, _, ca⟩
  rcases b with ⟨_, _, _, cb⟩
  cases ca <;> cases cb <;> simp [cwaLe]
  exact le_total _ _

theorem assign_natCast_ok (students : List Student) (n : ℕ) (hn : 0 < n) :
    assignStudentsBidirectional students (n : ℚ) = .ok (allocCore n students) := by
  have hden : ((n : ℚ)).den = 1 := Rat.den_natCast n
  have hpos : (0 : ℚ) < (n : ℚ) := by exact_mod_cast hn
  have hguard : ¬(((n : ℚ)).den ≠ 1 ∨ (n : ℚ) ≤ 0) := by
    push_neg
    exact ⟨hden, hpos⟩
  rw [assignStudentsBidirectional, if_neg hguard]
  have hnum : ((n : ℚ)).num.toNat = n := by
    rw [Rat.num_natCast]
    exact Int.toNat_natCast n
  rw [hnum]

theorem sweep_flatMap_snd (np : Nat) : ∀ (dir : Direction) (rem : List Student),
    (sweep np dir rem).flatMap (fun ch => ch.2) = rem
  | _, [] => by simp [sweep]
  | dir, s :: rest => by
    rw [sweep]
    simp only [List.flatMap_cons]
    rw [sweep_flatMap_snd np dir.flip (rest.drop np)]
    simp [List.take_append_drop]
termination_by _ rem => rem.length
decreasing_by simp [List.length_drop]; omega

theorem sweep_length (np : Nat) : ∀ (dir : Direction) (rem : List Student),
    (sweep np dir rem).length = (rem.length + np) / (np + 1)
  | _, [] => by
    have h : np / (np + 1) = 0 := Nat.div_eq_of_lt (by omega)
    simp [sweep, h]
  | dir, s :: rest => by
    rw [sweep]
    simp only [List.length_cons]
    rw [sweep_length np dir.flip (rest.drop np)]
    simp only [List.length_drop]
    rcases Nat.lt_or_ge rest.length np with h | h
    · have h1 : rest.length - np = 0 := by omega
      have h2 : (0 + np) / (np + 1) = 0 := Nat.div_eq_of_lt (by omega)
      have h3 : (rest.length + 1 + np) / (np + 1) = 1 :=
        Nat.div_eq_of_lt_le (by omega) (by omega)
      rw [h1, h2, h3]
    · have h1 : rest.length - np + np = rest.length := by omega
      have h2 : rest.length + 1 + np = rest.length + (np + 1) := by omega
      rw [h1, h2, Nat.add_div_right _ (by omega)]
termination_by _ rem => rem.length
decreasing_by simp [List.length_drop]; omega

theorem range_flatMap_forward : ∀ (c : List Student) (n : Nat), c.length ≤ n →
    (List.range n).flatMap (fun m => (c.drop m).take 1) = c
  | [], n, _ => by simp
  | x :: xs, 0, h => by simp at h
  | x :: xs, n + 1, h => by
    rw [List.range_succ_eq_map]
    simp only [List.flatMap_cons, List.drop_zero, List.flatMap_map, Function.comp,
      List.drop_succ_cons]
    have hxs : xs.length ≤ n := by
      simp only [List.length_cons] at h
      omega
    rw [range_flatMap_forward xs n hxs]
    rfl

theorem range_flatMap_backward : ∀ (c : List Student) (n : Nat), c.length ≤ n →
    (List.range n).flatMap (fun m => (c.drop (n - 1 - m)).take 1) = c.reverse
  | [], n, _ => by simp
  | x :: xs, 0, h => by simp at h
  | x :: xs, n + 1, h => by
    rw [List.range_succ, List.flatMap_append]
    have hxs : xs.length ≤ n := by
      simp only [List.length_cons] at h
      omega
    have hcong : (List.range n).flatMap (fun m => ((x :: xs).drop (n + 1 - 1 - m)).take 1) =
        (List.range n).flatMap (fun m => (xs.drop (n - 1 - m)).take 1) := by
      unfold List.flatMap
      congr 1
      apply List.map_congr_left
      intro m hm
      have hmn : m < n := List.mem_range.mp hm
      have hstep : n + 1 - 1 - m = (n - 1 - m) + 1 := by omega
      rw [hstep, List.drop_succ_cons]
    rw [hcong, range_flatMap_backward xs n hxs]
    have htail : ([n] : List Nat).flatMap (fun m => ((x :: xs).drop (n + 1 - 1 - m)).take 1) = [x] := by
      have hz : n + 1 - 1 - n = 0 := by omega
      simp [hz]
    rw [htail, List.reverse_cons]

theorem flatMap_append_perm {α β : Type} (l : List β) (f g : β → List α) :
    List.Perm (l.flatMap fun b => f b ++ g b) (l.flatMap f ++ l.flatMap g) := by
  induction l with
  | nil => simp
  | cons b t ih =>
    simp only [List.flatMap_cons, List.append_assoc]
    refine List.Perm.append_left (f b) ?_
    exact (List.Perm.append_left (g b) ih).trans (List.perm_append_comm_assoc _ _ _)

theorem buckets_join_perm (np : Nat) : ∀ (dir : Direction) (rem : List Student),
    List.Perm ((List.range (np + 1)).flatMap
      fun m => (sweep np dir rem).flatMap (bucketContrib (np + 1) m)) rem
  | dir, [] => by simp [sweep]
  | dir, s :: rest => by
    have ih := buckets_join_perm np dir.flip (rest.drop np)
    rw [sweep]
    simp only [List.flatMap_cons]
    refine (flatMap_append_perm (List.range (np + 1)) _ _).trans ?_
    have hlen : (s :: rest.take np).length ≤ np + 1 := by
      simp only [List.length_cons, List.length_take]
      omega
    have hhead : List.Perm ((List.range (np + 1)).flatMap
        fun m => bucketContrib (np + 1) m (dir, s :: rest.take np)) (s :: rest.take np) := by
      cases dir with
      | forward =>
        simp only [bucketContrib]
        rw [range_flatMap_forward _ _ hlen]
      | backward =>
        simp only [bucketContrib]
        rw [range_flatMap_backward _ _ hlen]
        exact List.reverse_perm _
    refine (hhead.append ih).trans ?_
    rw [List.cons_append, List.take_append_drop]
termination_by _ rem => rem.length
decreasing_by simp [List.length_drop]; omega

theorem bucketContrib_length_le (n m : Nat) (ch : Direction × List Student) :
    (bucketContrib n m ch).length ≤ 1 := by
  obtain ⟨dir, c⟩ := ch
  cases dir <;> simp only [bucketContrib, List.length_take, List.length_drop] <;> omega

theorem bucketContrib_length_full (np m : Nat) (hm : m ≤ np) (dir : Direction)
    (c : List Student) (hc : c.length = np + 1) :
    (bucketContrib (np + 1) m (dir, c)).length = 1 := by
  cases dir <;> simp only [bucketContrib, List.length_take, List.length_drop, hc] <;> omega

theorem sweep_bucket_bounds (np m : Nat) (hm : m ≤ np) : ∀ (dir : Direction) (rem : List Student),
    (sweep np dir rem).length - 1 ≤ ((sweep np dir rem).flatMap (bucketContrib (np + 1) m)).length ∧
    ((sweep np dir rem).flatMap (bucketContrib (np + 1) m)).length ≤ (sweep np dir rem).length
  | dir, [] => by simp [sweep]
  | dir, s :: rest => by
    obtain ⟨ih1, ih2⟩ := sweep_bucket_bounds np m hm dir.flip (rest.drop np)
    rw [sweep]
    simp only [List.flatMap_cons, List.length_cons, List.length_append]
    rcases Nat.lt_or_ge rest.length np with h | h
    · have hdrop : rest.drop np = [] := List.drop_eq_nil_of_le (by omega)
      rw [hdrop] at ih1 ih2 ⊢
      have hle := bucketContrib_length_le (np + 1) m (dir, s :: rest.take np)
      simp only [sweep, List.flatMap_nil, List.length_nil] at ih1 ih2 ⊢
      omega
    · have hfull : (s :: rest.take np).length = np + 1 := by
        simp only [List.length_cons, List.length_take]
        omega
      rw [bucketContrib_length_full np m hm dir _ hfull]
      omega
termination_by _ rem => rem.length
decreasing_by simp [List.length_drop]; omega

theorem jsSum_foldl_finite : ∀ (l : List JSNum) (q : ℚ), (∀ x ∈ l, x.isFinite = true) →
    l.foldl JSNum.add (.finite q) = .finite (q + (l.filterMap JSNum.ratQ).sum)
  | [], q, _ => by simp
  | x :: xs, q, h => by
    have hx := h x (List.mem_cons_self x xs)
    cases x with
    | nan => simp [JSNum.isFinite] at hx
    | posInf => simp [JSNum.isFinite] at hx
    | negInf => simp [JSNum.isFinite] at hx
    | finite y =>
      simp only [List.foldl_cons]
      rw [show JSNum.add (.finite q) (.finite y) = .finite (q + y) from rfl]
      rw [jsSum_foldl_finite xs (q + y) (fun z hz => h z (List.mem_cons_of_mem _ hz))]
      simp only [List.filterMap_cons, JSNum.ratQ, List.sum_cons, JSNum.finite.injEq]
      ring

theorem jsMax_foldl_finite : ∀ (l : List JSNum) (q : ℚ), (∀ x ∈ l, x.isFinite = true) →
    l.foldl JSNum.maxOp (.finite q) = .finite ((l.filterMap JSNum.ratQ).foldl max q)
  | [], q, _ => by simp
  | x :: xs, q, h => by
    have hx := h x (List.mem_cons_self x xs)
    cases x with
    | nan => simp [JSNum.isFinite] at hx
    | posInf => simp [JSNum.isFinite] at hx
    | negInf => simp [JSNum.isFinite] at hx
    | finite y =>
      simp only [List.foldl_cons]
      rw [show JSNum.maxOp (.finite q) (.finite y) = .finite (max q y) from rfl]
      rw [jsMax_foldl_finite xs (max q y) (fun z hz => h z (List.mem_cons_of_mem _ hz))]
      simp [JSNum.ratQ]

theorem jsMin_foldl_finite : ∀ (l : List JSNum) (q : ℚ), (∀ x ∈ l, x.isFinite = true) →
    l.foldl JSNum.minOp (.finite q) = .finite ((l.filterMap JSNum.ratQ).foldl min q)
  | [], q, _ => by simp
  | x :: xs, q, h => by
    have hx := h x (List.mem_cons_self x xs)
    cases x with
    | nan => simp [JSNum.isFinite] at hx
    | posInf => simp [JSNum.isFinite] at hx
    | negInf => simp [JSNum.isFinite] at hx
    | finite y =>
      simp only [List.foldl_cons]
      rw [show JSNum.minOp (.finite q) (.finite y) = .finite (min q y) from rfl]
      rw [jsMin_foldl_finite xs (min q y) (fun z hz => h z (List.mem_cons_of_mem _ hz))]
      simp [JSNum.ratQ]

theorem jsMax_all_finite (l : List JSNum) (h : ∀ x ∈ l, x.isFinite = true) (hne : l ≠ []) :
    jsMax l = .finite (specMaxQ (l.filterMap JSNum.ratQ)) := by
  cases l with
  | nil => exact absurd rfl hne
  | cons x xs =>
    have hx := h x (List.mem_cons_self x xs)
    cases x with
    | nan => simp [JSNum.isFinite] at hx
    | posInf => simp [JSNum.isFinite] at hx
    | negInf => simp [JSNum.isFinite] at hx
    | finite y =>
      show (JSNum.finite y :: xs).foldl JSNum.maxOp .negInf = _
      simp only [List.foldl_cons]
      rw [show JSNum.maxOp .negInf (.finite y) = .finite y from rfl]
      rw [jsMax_foldl_finite xs y (fun z hz => h z (List.mem_cons_of_mem _ hz))]
      simp [JSNum.ratQ, specMaxQ]

theorem jsMin_all_finite (l : List JSNum) (h : ∀ x ∈ l, x.isFinite = true) (hne : l ≠ []) :
    jsMin l = .finite (specMinQ (l.filterMap JSNum.ratQ)) := by
  cases l with
  | nil => exact absurd rfl hne
  | cons x xs =>
    have hx := h x (List.mem_cons_self x xs)
    cases x with
    | nan => simp [JSNum.isFinite] at hx
    | posInf => simp [JSNum.isFinite] at hx
    | negInf => simp [JSNum.isFinite] at hx
    | finite y =>
      show (JSNum.finite y :: xs).foldl JSNum.minOp .posInf = _
      simp only [List.foldl_cons]
      rw [show JSNum.minOp .posInf (.finite y) = .finite y from rfl]
      rw [jsMin_foldl_finite xs y (fun z hz => h z (List.mem_cons_of_mem _ hz))]
      simp [JSNum.ratQ, specMinQ]

theorem ratsOf_length (l : List Student) (h : ∀ s ∈ l, s.cwa.isFinite = true) :
    (ratsOf l).length = l.length := by
  induction l with
  | nil => rfl
  | cons s t ih =>
    have hs := h s (List.mem_cons_self s t)
    have ht := fun z hz => h z (List.mem_cons_of_mem _ hz)
    cases hcwa : s.cwa with
    | finite y =>
      simp only [ratsOf, List.filterMap_cons, hcwa, JSNum.ratQ, List.length_cons]
      exact congrArg (· + 1) (ih ht)
    | nan => rw [hcwa] at hs; simp [JSNum.isFinite] at hs
    | posInf => rw [hcwa] at hs; simp [JSNum.isFinite] at hs
    | negInf => rw [hcwa] at hs; simp [JSNum.isFinite] at hs

theorem validateRowsFrom_spec : ∀ (k : Nat) (rows : List RawRow),
    (validateRowsFrom k rows).1.length = rows.length ∧
    ∀ (i : Nat) (r : RawRow), rows[i]? = some r →
      (validateRowsFrom k rows).1[i]? = some (validateRow (k + i) r).1 ∧
      ∀ e ∈ (validateRow (k + i) r).2, e ∈ (validateRowsFrom k rows).2
  | _, [] => by simp [validateRowsFrom]
  | k, r :: rs => by
    have ih := validateRowsFrom_spec (k + 1) rs
    simp only [validateRowsFrom]
    constructor
    · simp [ih.1]
    · intro i rr hr
      cases i with
      | zero =>
        simp only [List.getElem?_cons_zero, Option.some.injEq] at hr
        subst hr
        refine ⟨by simp, ?_⟩
        intro e he
        exact List.mem_append_left _ he
      | succ j =>
        simp only [List.getElem?_cons_succ] at hr
        have hrec := ih.2 j rr hr
        have harith : k + 1 + j = k + (j + 1) := by omega
        rw [harith] at hrec
        refine ⟨by simpa using hrec.1, ?_⟩
        intro e he
        exact List.mem_append_right _ (hrec.2 e he)

theorem sortStudents_perm (l : List Student) : List.Perm (sortStudents l) l :=
  List.mergeSort_perm l cwaLe

theorem allocCore_flatMap_eq (n : Nat) (students : List Student) :
    ((allocCore n students).assignments.flatMap fun a => a.students) =
    ((List.range n).flatMap fun m =>
      (sweep (n - 1) .forward (sortStudents (students.filter fun s => s.cwa.isFinite))).flatMap
        (bucketContrib n m)) := by
  simp only [allocCore, List.flatMap_map]

theorem allocCore_join_perm (n : Nat) (hn : 0 < n) (students : List Student) :
    List.Perm ((allocCore n students).assignments.flatMap fun a => a.students)
      (students.filter fun s => s.cwa.isFinite) := by
  obtain ⟨np, rfl⟩ : ∃ np, n = np + 1 := ⟨n - 1, by omega⟩
  rw [allocCore_flatMap_eq]
  simp only [Nat.add_sub_cancel]
  exact (buckets_join_perm np .forward _).trans (sortStudents_perm _)

/-- C9: allocation is deterministic: equal inputs produce equal results,
including the buckets, their order, and the passes sequence. -/
theorem allocation_deterministic (s₁ s₂ : List Student) (q₁ q₂ : ℚ)
    (hs : s₁ = s₂) (hq : q₁ = q₂) :
    assignStudentsBidirectional s₁ q₁ = assignStudentsBidirectional s₂ q₂ := by
  rw [hs, hq]

theorem allocation_deterministic_witness :
    assignStudentsBidirectional [] 2 = assignStudentsBidirectional [] 2 :=
  allocation_deterministic [] [] 2 2 rfl rfl

/-- C5: allocation fails, with the `InvalidArgument` message
`"numMentors must be a positive integer"`, exactly when `numMentors` is not a
positive integer (zero, negative, or fractional); for every positive integer
it returns a result, so the precondition violation is the only failure mode. -/
theorem allocation_error_iff_bad_mentor_count (students : List Student) (q : ℚ) :
    (assignStudentsBidirectional students q = .error "numMentors must be a positive integer"
      ↔ ¬(q.den = 1 ∧ 0 < q)) ∧
    ((∃ r, assignStudentsBidirectional students q = .ok r) ↔ (q.den = 1 ∧ 0 < q)) := by
  rw [assignStudentsBidirectional]
  by_cases h : q.den = 1 ∧ 0 < q
  · rw [if_neg (by push_neg; exact ⟨h.1, h.2⟩)]
    refine ⟨⟨fun hr => by simp at hr, fun hcon => absurd h hcon⟩, ?_⟩
    exact ⟨fun _ => h, fun _ => ⟨allocCore q.num.toNat students, rfl⟩⟩
  · have hguard : q.den ≠ 1 ∨ q ≤ 0 := by
      by_cases hd : q.den = 1
      · right
        by_contra hq
        exact h ⟨hd, not_le.mp hq⟩
      · left
        exact hd
    rw [if_pos hguard]
    refine ⟨⟨fun _ => h, fun _ => rfl⟩, ?_⟩
    constructor
    · rintro ⟨r, hr⟩
      simp at hr
    · intro hcon
      exact absurd hcon h

theorem allocation_error_iff_witness :
    (assignStudentsBidirectional [] 0 = .error "numMentors must be a positive integer") ∧
    (∃ r, assignStudentsBidirectional [] 1 = .ok r) := by
  constructor
  · exact (allocation_error_iff_bad_mentor_count [] 0).1.mpr (by norm_num)
  · exact (allocation_error_iff_bad_mentor_count [] 1).2.mpr (by norm_num)

/-- C10: the concatenation of all bucket contents is a permutation of the
filtered input (each finite-cwa student placed exactly once, counted with
multiplicity), and no student with a non-finite cwa appears in any bucket. -/
theorem allocation_permutation (students : List Student) (n : ℕ) (hn : 0 < n)
    (r : AssignmentResult) (hr : assignStudentsBidirectional students (n : ℚ) = .ok r) :
    List.Perm (r.assignments.flatMap fun a => a.students)
      (students.filter fun s => s.cwa.isFinite) ∧
    ∀ a ∈ r.assignments, ∀ s ∈ a.students, s.cwa.isFinite = true := by
  rw [assign_natCast_ok students n hn] at hr
  injection hr with hr
  subst hr
  have hperm := allocCore_join_perm n hn students
  refine ⟨hperm, ?_⟩
  intro a ha s hs
  have hmem : s ∈ (allocCore n students).assignments.flatMap fun a => a.students :=
    List.mem_flatMap.mpr ⟨a, ha, hs⟩
  have : s ∈ students.filter fun s => s.cwa.isFinite := hperm.mem_iff.mp hmem
  exact (List.mem_filter.mp this).2

theorem allocation_permutation_witness :
    (0 : ℕ) < 2 ∧
    (List.Perm ((AssignmentResult.mk [⟨0, []⟩, ⟨1, []⟩] []).assignments.flatMap
        fun a => a.students)
      (([] : List Student).filter fun s => s.cwa.isFinite) ∧
    ∀ a ∈ (AssignmentResult.mk [⟨0, []⟩, ⟨1, []⟩] []).assignments,
      ∀ s ∈ a.students, s.cwa.isFinite = true) := by
  refine ⟨by omega, allocation_permutation [] 2 (by omega) _ ?_⟩
  rw [assign_natCast_ok [] 2 (by omega)]
  have hcore : allocCore 2 [] = { assignments := [⟨0, []⟩, ⟨1, []⟩], passes := [] } := by
    simp [allocCore, sortStudents, sweep, List.range_succ]
  rw [hcore]

/-- C2: the total number of students assigned across all mentor buckets equals
the number of students in the filtered input (those with a finite cwa). -/
theorem allocation_conserves_count (students : List Student) (n : ℕ) (hn : 0 < n)
    (r : AssignmentResult) (hr : assignStudentsBidirectional students (n : ℚ) = .ok r) :
    (r.assignments.map fun a => a.students.length).sum =
      (students.filter fun s => s.cwa.isFinite).length := by
  rw [assign_natCast_ok students n hn] at hr
  injection hr with hr
  subst hr
  have hperm := allocCore_join_perm n hn students
  have hlen := hperm.length_eq
  rw [← hlen]
  rw [List.flatMap]
  rw [List.length_flatten, List.map_map]
  rfl

theorem allocation_conserves_count_witness :
    (0 : ℕ) < 2 ∧
    ((AssignmentResult.mk [⟨0, []⟩, ⟨1, []⟩] []).assignments.map
        fun a => a.students.length).sum =
      (([] : List Student).filter fun s => s.cwa.isFinite).length := by
  refine ⟨by omega, allocation_conserves_count [] 2 (by omega) _ ?_⟩
  rw [assign_natCast_ok [] 2 (by omega)]
  have hcore : allocCore 2 [] = { assignments := [⟨0, []⟩, ⟨1, []⟩], passes := [] } := by
    simp [allocCore, sortStudents, sweep, List.range_succ]
  rw [hcore]

theorem allocCore_bucket_size_bounds (n : Nat) (hn : 0 < n) (students : List Student)
    (z : Nat) (hz : z ∈ (allocCore n students).assignments.map fun a => a.students.length) :
    (allocCore n students).passes.length - 1 ≤ z ∧
    z ≤ (allocCore n students).passes.length := by
  obtain ⟨np, rfl⟩ : ∃ np, n = np + 1 := ⟨n - 1, by omega⟩
  simp only [allocCore, List.map_map, List.mem_map, Nat.add_sub_cancel] at hz ⊢
  obtain ⟨m, hm, rfl⟩ := hz
  have hmn : m ≤ np := by
    have := List.mem_range.mp hm
    omega
  have h := sweep_bucket_bounds np m hmn .forward
    (sortStudents (students.filter fun s => s.cwa.isFinite))
  simpa [List.length_map] using h

/-- C3: in every allocation result the bucket sizes are balanced: the largest
bucket exceeds the smallest by at most one student. -/
theorem allocation_balance_bound (students : List Student) (n : ℕ) (hn : 0 < n)
    (r : AssignmentResult) (hr : assignStudentsBidirectional students (n : ℚ) = .ok r)
    (x y : ℕ)
    (hx : (r.assignments.map fun a => a.students.length).max? = some x)
    (hy : (r.assignments.map fun a => a.students.length).min? = some y) :
    x - y ≤ 1 := by
  rw [assign_natCast_ok students n hn] at hr
  injection hr with hr
  subst hr
  have hxm : x ∈ (allocCore n students).assignments.map fun a => a.students.length :=
    List.max?_mem (fun a b => by omega) hx
  have hym : y ∈ (allocCore n students).assignments.map fun a => a.students.length :=
    List.min?_mem (fun a b => by omega) hy
  have hxb := allocCore_bucket_size_bounds n hn students x hxm
  have hyb := allocCore_bucket_size_bounds n hn students y hym
  omega

theorem allocation_balance_bound_witness : (3 : ℕ) - 2 ≤ 1 := by
  have hone : (0 : ℕ) < 2 := by omega
  have hcore : allocCore 2 oddRoster =
      { assignments :=
          [⟨0, [mkStudent "1" "1" "1" 90, mkStudent "4" "4" "4" 60, mkStudent "5" "5" "5" 50]⟩,
           ⟨1, [mkStudent "2" "2" "2" 80, mkStudent "3" "3" "3" 70]⟩]
        passes := [.forward, .backward, .forward] } := by
    have hsorted : sortStudents (oddRoster.filter fun s => s.cwa.isFinite) =
        oddRoster.filter fun s => s.cwa.isFinite :=
      List.mergeSort_of_sorted (by decide)
    rw [allocCore, hsorted]
    simp [oddRoster, mkStudent, JSNum.isFinite, sweep, Direction.flip, bucketContrib,
      List.range_succ]
  exact allocation_balance_bound oddRoster 2 hone _ (assign_natCast_ok _ 2 hone) 3 2
    (by rw [hcore]; rfl) (by rw [hcore]; rfl)

/-- C6: the passes sequence has length `ceil(placedCount / numMentors)`, where
`placedCount` is the number of students placed, i.e. those of the filtered
(finite-cwa) input; in particular the empty roster with three mentors yields
three empty buckets and an empty passes sequence. -/
theorem passes_length_ceil (students : List Student) (n : ℕ) (hn : 0 < n)
    (r : AssignmentResult) (hr : assignStudentsBidirectional students (n : ℚ) = .ok r) :
    r.passes.length = ((students.filter fun s => s.cwa.isFinite).length + n - 1) / n ∧
    assignStudentsBidirectional ([] : List Student) (3 : ℚ) =
      .ok { assignments := [⟨0, []⟩, ⟨1, []⟩, ⟨2, []⟩], passes := [] } := by
  constructor
  · rw [assign_natCast_ok students n hn] at hr
    injection hr with hr
    subst hr
    obtain ⟨np, rfl⟩ : ∃ np, n = np + 1 := ⟨n - 1, by omega⟩
    simp only [allocCore, Nat.add_sub_cancel, List.length_map]
    rw [sweep_length np .forward]
    have hlen : (sortStudents (students.filter fun s => s.cwa.isFinite)).length =
        (students.filter fun s => s.cwa.isFinite).length := by
      simp [sortStudents]
    rw [hlen]
    have harith : (List.filter (fun s => s.cwa.isFinite) students).length + (np + 1) - 1 =
        (List.filter (fun s => s.cwa.isFinite) students).length + np := by omega
    rw [harith]
  · have h3 : ((3 : ℕ) : ℚ) = (3 : ℚ) := by norm_num
    rw [← h3, assign_natCast_ok [] 3 (by omega)]
    have hcore : allocCore 3 [] = { assignments := [⟨0, []⟩, ⟨1, []⟩, ⟨2, []⟩], passes := [] } := by
      simp [allocCore, sortStudents, sweep, List.range_succ]
    rw [hcore]

theorem passes_length_ceil_witness :
    ({ assignments := [⟨0, []⟩], passes := [] } : AssignmentResult).passes.length =
      ((([] : List Student).filter fun s => s.cwa.isFinite).length + 1 - 1) / 1 := by
  have hone : (0 : ℕ) < 1 := by omega
  have hcore : allocCore 1 [] = { assignments := [⟨0, []⟩], passes := [] } := by
    simp [allocCore, sortStudents, sweep, List.range_succ]
  refine (passes_length_ceil [] 1 hone _ ?_).1
  rw [assign_natCast_ok [] 1 hone, hcore]

/-- C4: the engine's sort is stable: for every roster and every score value,
the students with that cwa appear in the sorted sequence in exactly their
input order; moreover the serpentine sweep consumes the sorted sequence in
order (the per-pass chunks flatten back to it), so the same relative order is
kept in assignment order. -/
theorem sort_stable_equal_cwa (l : List Student) (c : ℚ) :
    (sortStudents l).filter (fun s => decide (s.cwa = .finite c)) =
      l.filter (fun s => decide (s.cwa = .finite c)) ∧
    ∀ (np : Nat) (dir : Direction),
      ((sweep np dir (sortStudents l)).flatMap fun ch => ch.2) = sortStudents l := by
  refine ⟨?_, fun np dir => sweep_flatMap_snd np dir (sortStudents l)⟩
  simp only [sortStudents]
  have hsub : List.Sublist (l.filter fun s => decide (s.cwa = .finite c)) l :=
    List.filter_sublist l
  have hpair : (l.filter fun s => decide (s.cwa = .finite c)).Pairwise fun a b => cwaLe a b := by
    apply List.pairwise_of_forall_mem_list
    intro a ha b hb
    have hpa := (List.mem_filter.mp ha).2
    have hpb := (List.mem_filter.mp hb).2
    simp only [decide_eq_true_eq] at hpa hpb
    show cwaLe a b = true
    simp [cwaLe, hpa, hpb]
  have hs := List.sublist_mergeSort cwaLe_trans cwaLe_total hpair hsub
  have hf := hs.filter (fun s => decide (s.cwa = .finite c))
  rw [List.filter_filter] at hf
  have hid : (fun (s : Student) => decide (s.cwa = JSNum.finite c) && decide (s.cwa = JSNum.finite c)) =
      (fun s => decide (s.cwa = JSNum.finite c)) := by
    funext s
    exact Bool.and_self _
  rw [hid] at hf
  have hperm : List.Perm ((l.mergeSort cwaLe).filter fun s => decide (s.cwa = .finite c))
      (l.filter fun s => decide (s.cwa = .finite c)) :=
    (List.mergeSort_perm l cwaLe).filter _
  exact (hf.eq_of_length hperm.length_eq.symm).symm

/-- C7: the validator appends exactly one `Student` per input row, built from
the parsed (trimmed, rounded) values even when checks fail; a row whose
STUDENTID is not exactly 8 digits contributes the error
`"Row (i+2): STUDENTID must be 8 digits"` for 0-based data row `i` (the header
counts as row 1, so the first data row reports as row 2). -/
theorem validator_row_count_invariant (rows : List RawRow) (_hne : rows ≠ []) :
    (validateRows rows).1.length = rows.length ∧
    ∀ (i : Nat) (r : RawRow), rows[i]? = some r →
      (validateRows rows).1[i]? = some
        { studentId := trimStr r.studentIdRaw, indexNo := trimStr r.indexNoRaw,
          name := trimStr r.nameRaw, cwa := r.cwaParsed.toFixed2 } ∧
      (isDigits 8 (trimStr r.studentIdRaw) = false →
        (s!"Row {i + 2}: STUDENTID must be 8 digits") ∈ (validateRows rows).2) := by
  have h := validateRowsFrom_spec 2 rows
  refine ⟨h.1, ?_⟩
  intro i r hr
  simp only [validateRows]
  have h2 := h.2 i r hr
  rw [Nat.add_comm 2 i] at h2
  refine ⟨by rw [h2.1]; rfl, ?_⟩
  intro hbad
  apply h2.2
  simp [validateRow, hbad]

theorem validator_row_count_invariant_witness :
    (validateRows [⟨"1234567", "1234567", "Ama", .finite 50⟩]).1.length =
      ([⟨"1234567", "1234567", "Ama", .finite 50⟩] : List RawRow).length ∧
    "Row 2: STUDENTID must be 8 digits" ∈
      (validateRows [⟨"1234567", "1234567", "Ama", .finite 50⟩]).2 := by
  have h := validator_row_count_invariant [⟨"1234567", "1234567", "Ama", .finite 50⟩] (by simp)
  refine ⟨h.1, ?_⟩
  have h2 := (h.2 0 ⟨"1234567", "1234567", "Ama", .finite 50⟩ rfl).2 (by decide)
  simpa using h2

/-- C8: `getMentorStats` returns one entry per assignment, in the same order;
on a bucket of finite-cwa students the count is the bucket size, `averageCwa`
is the arithmetic mean rounded to two decimals, and `highestCwa` / `lowestCwa`
are the extreme scores; on an empty bucket all three are `0` (never NaN). -/
theorem mentor_stats_correct (assignments : List MentorAssignment) (i : Nat)
    (a : MentorAssignment) (ha : assignments[i]? = some a)
    (hfin : ∀ s ∈ a.students, s.cwa.isFinite = true) :
    (getMentorStats assignments).length = assignments.length ∧
    (getMentorStats assignments)[i]? = some
      { mentorIndex := a.mentorIndex
        count := a.students.length
        averageCwa := .finite (specMeanRound2 (ratsOf a.students))
        highestCwa := .finite (specMaxQ (ratsOf a.students))
        lowestCwa := .finite (specMinQ (ratsOf a.students)) } := by
  refine ⟨by simp [getMentorStats], ?_⟩
  rw [getMentorStats, List.getElem?_map, ha, Option.map_some']
  simp only [Option.some.injEq]
  have hmapfin : ∀ x ∈ (a.students.map fun s => s.cwa), x.isFinite = true := by
    intro x hx
    obtain ⟨s, hs, rfl⟩ := List.mem_map.mp hx
    exact hfin s hs
  have hrats : (a.students.map fun s => s.cwa).filterMap JSNum.ratQ = ratsOf a.students :=
    List.filterMap_map _ _ _
  have hratlen := ratsOf_length a.students hfin
  by_cases h0 : a.students.length = 0
  · have hnil : a.students = [] := List.length_eq_zero.mp h0
    rw [mentorStatOf, hnil]
    simp only [List.length_nil, if_pos rfl, ratsOf, List.filterMap_nil, specMeanRound2,
      specMaxQ, specMinQ, List.length_nil, JSNum.toFixed2]
    norm_num
  · have hne : a.students ≠ [] := by
      intro hh
      rw [hh] at h0
      exact h0 rfl
    have hmapne : (a.students.map fun s => s.cwa) ≠ [] := by
      simpa using hne
    have hsum : jsSum (a.students.map fun s => s.cwa) = .finite ((ratsOf a.students).sum) := by
      rw [jsSum, jsSum_foldl_finite _ 0 hmapfin, hrats, zero_add]
    have hmax : jsMax (a.students.map fun s => s.cwa) =
        .finite (specMaxQ (ratsOf a.students)) := by
      rw [jsMax_all_finite _ hmapfin hmapne, hrats]
    have hmin : jsMin (a.students.map fun s => s.cwa) =
        .finite (specMinQ (ratsOf a.students)) := by
      rw [jsMin_all_finite _ hmapfin hmapne, hrats]
    have hrne : ¬((ratsOf a.students).length = 0) := by
      rw [hratlen]
      exact h0
    simp only [mentorStatOf, if_neg h0]
    rw [hsum, hmax, hmin]
    simp only [JSNum.divNat, JSNum.toFixed2, specMeanRound2, if_neg hrne, hratlen]
    rw [if_neg h0]

theorem mentor_stats_correct_witness :
    (getMentorStats [⟨0, [mkStudent "1" "1" "1" 90, mkStudent "2" "2" "2" 80]⟩]).length =
      ([⟨0, [mkStudent "1" "1" "1" 90, mkStudent "2" "2" "2" 80]⟩] :
        List MentorAssignment).length ∧
    (getMentorStats [⟨0, [mkStudent "1" "1" "1" 90, mkStudent "2" "2" "2" 80]⟩])[0]? = some
      { mentorIndex := 0
        count := 2
        averageCwa := .finite (specMeanRound2
          (ratsOf [mkStudent "1" "1" "1" 90, mkStudent "2" "2" "2" 80]))
        highestCwa := .finite (specMaxQ
          (ratsOf [mkStudent "1" "1" "1" 90, mkStudent "2" "2" "2" 80]))
        lowestCwa := .finite (specMinQ
          (ratsOf [mkStudent "1" "1" "1" 90, mkStudent "2" "2" "2" 80])) } :=
  mentor_stats_correct [⟨0, [mkStudent "1" "1" "1" 90, mkStudent "2" "2" "2" 80]⟩] 0
    ⟨0, [mkStudent "1" "1" "1" 90, mkStudent "2" "2" "2" 80]⟩ rfl (by decide)

/-- C1: on the six-student roster scored 90, 80, 70, 60, 50, 40 with two
mentors, the serpentine sweep gives mentor 0 the students scored 90, 60, 50
(in that order), mentor 1 those scored 80, 70, 40, and records the passes
`[forward, backward, forward]`. -/
theorem serpentine_example_allocation :
    assignStudentsBidirectional exampleRoster 2 = .ok
      { assignments :=
          [⟨0, [mkStudent "1" "1" "1" 90, mkStudent "4" "4" "4" 60, mkStudent "5" "5" "5" 50]⟩,
           ⟨1, [mkStudent "2" "2" "2" 80, mkStudent "3" "3" "3" 70, mkStudent "6" "6" "6" 40]⟩]
        passes := [.forward, .backward, .forward] } := by
  have h2 : ((2 : ℕ) : ℚ) = (2 : ℚ) := by norm_num
  rw [← h2, assign_natCast_ok exampleRoster 2 (by omega)]
  have hsorted : sortStudents (exampleRoster.filter fun s => s.cwa.isFinite) =
      exampleRoster.filter fun s => s.cwa.isFinite :=
    List.mergeSort_of_sorted (by decide)
  rw [allocCore, hsorted]
  simp [exampleRoster, mkStudent, JSNum.isFinite, sweep, Direction.flip, bucketContrib,
    List.range_succ]
